import Mathlib

/-!
Verification model of `tangled.decorators` from the TangledWeb/tangled
repository.

The central object is the `cached_property` descriptor: a per-instance
memoizing property with declared dependencies.  Its runtime state is the
instance `__dict__` (cache slots plus `was_set_directly` flags, the latter
read through `dict.get`, so an absent flag reads as false) together with a
class-level dependency map built lazily on first touch of each attribute.

We embed that state as `St`:
 * `cache`  — the instance cache slots (`obj.__dict__[name]`);
 * `flag`   — the per-attribute `was_set_directly` flags as the code reads
   them (`attrs.get(...)`, absent and `False` are indistinguishable);
 * `depMap` — the class-level dependency map, an insertion-ordered
   association list mirroring a Python dict;
 * `calls`  — ghost instrumentation: how often each attribute's compute
   function has been invoked;
 * `resets` — ghost instrumentation: how often each attribute has been
   invalidated by dependency-reset propagation.

The recursive propagation of `_reset_dependents` (each `delattr` of a
dependent re-enters `_update`, which runs `_reset_dependents` again) is
modelled with an explicit recursion-depth budget (`resetDepsF`); entering a
nested pass always deletes a cached slot first, so a budget of
`cache.length + 1` is enough, which is proved as a stabilization theorem.
-/

namespace Tangled

abbrev Name := String

abbrev Err := String

/-- Instance plus class-level state of the `cached_property` machinery. -/
structure St (V : Type) where
  cache : List (Name × V)
  flag : Name → Bool
  depMap : List (Name × List Name)
  calls : Name → Nat
  resets : Name → Nat

/-- Association-list lookup (Python `dict.get`). -/
def alookup {κ α : Type} [DecidableEq κ] : List (κ × α) → κ → Option α
  | [], _ => none
  | (k, v) :: t, n => if k = n then some v else alookup t n

/-- Association-list key removal (Python `del d[k]`). -/
def aremove {κ α : Type} [DecidableEq κ] : List (κ × α) → κ → List (κ × α)
  | [], _ => []
  | (k, v) :: t, n => if k = n then aremove t n else (k, v) :: aremove t n

/-- Association-list assignment (Python `d[k] = v`): replace in place when
the key exists, append otherwise, preserving dict insertion order. -/
def aset {κ α : Type} [DecidableEq κ] : List (κ × α) → κ → α → List (κ × α)
  | [], n, a => [(n, a)]
  | (k, v) :: t, n, a => if k = n then (n, a) :: t else (k, v) :: aset t n a

/-- `cached_property._add_to_dependency_map`: register the attribute's
declared dependencies, but only when it declares any
(`if self.dependencies:`). -/
def addDep {V : Type} (deps : List Name) (n : Name) (s : St V) : St V :=
  if deps = [] then s else { s with depMap := aset s.depMap n deps }

/-- `attrs[name] = value`. -/
def cacheSet {V : Type} (n : Name) (v : V) (s : St V) : St V :=
  { s with cache := (n, v) :: aremove s.cache n }

/-- `del attrs[name]`. -/
def cacheDel {V : Type} (n : Name) (s : St V) : St V :=
  { s with cache := aremove s.cache n }

/-- `attrs[was_set_directly_name] = b`. -/
def setFlag {V : Type} (n : Name) (b : Bool) (s : St V) : St V :=
  { s with flag := fun x => if x = n then b else s.flag x }

/-- Ghost: count one invocation of `name`'s compute function. -/
def bumpCalls {V : Type} (n : Name) (s : St V) : St V :=
  { s with calls := fun x => if x = n then s.calls x + 1 else s.calls x }

/-- Ghost: count one dependency-driven invalidation of `name`. -/
def bumpResets {V : Type} (n : Name) (s : St V) : St V :=
  { s with resets := fun x => if x = n then s.resets x + 1 else s.resets x }

/-- One traversal of the `for dependent, dependencies in
dependency_map.items()` loop of `cached_property._reset_dependents`.  A
qualifying dependent (the updated name is among its dependencies, it has a
cache slot, and it was not set directly) is deleted exactly as
`delattr(obj, dependent)` does — slot removed, flag set to false — and
`inner` then performs the dependent's own recursive propagation pass. -/
def pass {V : Type} (inner : Name → St V → St V) (name : Name) :
    List (Name × List Name) → St V → St V
  | [], s => s
  | (dep, deps) :: rest, s =>
    if name ∈ deps ∧ (alookup s.cache dep).isSome = true ∧ s.flag dep = false then
      pass inner name rest
        (inner dep (bumpResets dep (setFlag dep false (cacheDel dep s))))
    else
      pass inner name rest s

/-- `cached_property._reset_dependents` with an explicit recursion-depth
budget: at depth `fuel + 1` a pass runs over the current dependency map,
nested passes getting budget `fuel`.  Entering a nested pass deletes a
cached slot first, so `cache.length + 1` is always a sufficient budget
(proved below as stabilization). -/
def resetDepsF {V : Type} : Nat → Name → St V → St V
  | 0, _, s => s
  | fuel + 1, name, s => pass (resetDepsF fuel) name s.depMap s

/-- `_reset_dependents` proper, run with a sufficient budget. -/
def resetDependents {V : Type} (name : Name) (s : St V) : St V :=
  resetDepsF (s.cache.length + 1) name s

/-- `cached_property._update` up to (but excluding) the final
`_reset_dependents` call: register the dependency entry when the attribute
has no slot, store (`set`) or drop (`delete`) the slot, and record the
`was_set_directly` flag. -/
def preUpdate {V : Type} (deps : List Name) (n : Name) (arg : Option V) (s : St V) :
    St V :=
  let s1 := if (alookup s.cache n).isNone = true then addDep deps n s else s
  let s2 :=
    match arg with
    | some v => cacheSet n v s1
    | none => if (alookup s1.cache n).isSome = true then cacheDel n s1 else s1
  setFlag n arg.isSome s2

/-- `cached_property._update`: `arg = some v` is `__set__`, `arg = none` is
`__delete__`. -/
def update {V : Type} (deps : List Name) (n : Name) (arg : Option V) (s : St V) :
    St V :=
  resetDependents n (preUpdate deps n arg s)

/-- A `cached_property` descriptor: declared dependency names (empty list
for `dependencies = None`) and the compute function, which receives the
instance and may itself read other managed attributes, hence the state
transformer shape. -/
structure CachedProp (V : Type) where
  deps : List Name
  fget : St V → Except Err V × St V

/-- `cached_property.__get__` on an instance: return the cached slot when
present; otherwise register the dependency entry, invoke the compute
function (whose exception, if any, propagates while its state effects
persist), store the result, and clear the `was_set_directly` flag. -/
def getAttr {V : Type} (d : CachedProp V) (n : Name) (s : St V) :
    Except Err V × St V :=
  match alookup s.cache n with
  | some v => (.ok v, s)
  | none =>
    let s1 := addDep d.deps n s
    match d.fget s1 with
    | (.error e, s2) => (.error e, bumpCalls n s2)
    | (.ok v, s2) => (.ok v, setFlag n false (cacheSet n v (bumpCalls n s2)))

/-- `cached_property.__set__`. -/
def setAttr {V : Type} (d : CachedProp V) (n : Name) (v : V) (s : St V) : St V :=
  update d.deps n (some v) s

/-- `cached_property.__delete__`. -/
def delAttr {V : Type} (d : CachedProp V) (n : Name) (s : St V) : St V :=
  update d.deps n none s

/-- `k` consecutive reads of the same attribute: the list of results in
order, and the final state. -/
def reads {V : Type} (d : CachedProp V) (n : Name) : Nat → St V → List (Except Err V) × St V
  | 0, s => ([], s)
  | k + 1, s =>
    let r := getAttr d n s
    let rs := reads d n k r.2
    (r.1 :: rs.1, rs.2)

/-- Fresh instance state. -/
def emptySt (V : Type) : St V :=
  ⟨[], fun _ => false, [], fun _ => 0, fun _ => 0⟩

/-- A compute function that ignores the instance state and produces the
result of attempt `i` from a fixed schedule `r`, `i` being the ghost count
of previous invocations: the shape of an ordinary compute function whose
outcome may change between attempts. -/
def seqFget {V : Type} (n : Name) (r : Nat → Except Err V) :
    St V → Except Err V × St V :=
  fun s => (r (s.calls n), s)

/-- The error results of the attempts numbered `m, m + 1, ..., m + i - 1`
of a compute schedule whose attempt `j` fails with `e j`. -/
def errList {V : Type} (e : Nat → Err) : Nat → Nat → List (Except Err V)
  | _, 0 => []
  | m, i + 1 => .error (e m) :: errList e (m + 1) i

/-! ## `per_instance_lru_cache` (claim C9)

`per_instance_lru_cache.decorator` keeps one `functools.lru_cache`-wrapped
copy of the method per instance id and delegates every call to it.  The
LRU algorithm itself is Python standard-library code, not part of this
repository. -/

/-- State of one instance's LRU cache: entries most-recently-used first,
plus the hit and miss counters of `cache_info`. -/
structure LruSt (K V : Type) where
  entries : List (K × V)
  hits : Nat
  misses : Nat

/-- The fresh cache created on an instance's first call. -/
def emptyLru (K V : Type) : LruSt K V :=
  ⟨[], 0, 0⟩

/-- Modelled from the spec: the per-call behavior of
`functools.lru_cache(maxsize, typed)` — standard-library code absent from
this repository — as the spec describes it: "a known LRU cache algorithm
(recency-ordered eviction when the configured bound is exceeded; size 0
disables storage while still counting misses; unbounded when no limit is
configured)".  Entries are kept most-recently-used first; a hit moves the
entry to the front; a miss inserts at the front and, with a positive
bound, drops the last (least recently used) entry once the bound is
exceeded. -/
def lruCall {K V : Type} [DecidableEq K] (maxsize : Option Nat) (f : K → V)
    (k : K) (st : LruSt K V) : V × LruSt K V :=
  if maxsize = some 0 then (f k, { st with misses := st.misses + 1 })
  else
    match alookup st.entries k with
    | some v =>
      (v, { st with
              entries := (k, v) :: aremove st.entries k
              hits := st.hits + 1 })
    | none =>
      let v := f k
      let es := (k, v) :: st.entries
      let es' :=
        match maxsize with
        | some m => if m < es.length then es.dropLast else es
        | none => es
      (v, { st with entries := es', misses := st.misses + 1 })

/-- `per_instance_lru_cache.decorator.wrapper`: fetch (or create) the
calling instance's own LRU cache, keyed by instance id, and delegate the
call to it. -/
def piCall {K V : Type} [DecidableEq K] (maxsize : Option Nat) (f : K → V)
    (i : Nat) (k : K) (tbl : List (Nat × LruSt K V)) :
    V × List (Nat × LruSt K V) :=
  let st :=
    match alookup tbl i with
    | some st => st
    | none => emptyLru K V
  let r := lruCall maxsize f k st
  (r.1, aset tbl i r.2)

/-! ## Concrete programs used by the scenario claim and the witnesses -/

/-- The spec's scenario class, attribute `a`: computes `"cached"`. -/
def daC5 : CachedProp String :=
  ⟨[], fun s => (.ok "cached", s)⟩

/-- The spec's scenario class, attribute `b`: declares dependency `a` and
computes `self.a + ".xxx"` (reading `a` through the descriptor). -/
def dbC5 : CachedProp String :=
  ⟨["a"], fun s =>
    match getAttr daC5 "a" s with
    | (.ok v, t) => (.ok (v ++ ".xxx"), t)
    | (.error e, t) => (.error e, t)⟩

/-- Scenario: fresh instance. -/
def c5s0 : St String := emptySt String

/-- Scenario state after: read `b`. -/
def c5s1 : St String := (getAttr dbC5 "b" c5s0).2

/-- Scenario state after: set `b = "XXX"`. -/
def c5s2 : St String := setAttr dbC5 "b" "XXX" c5s1

/-- Scenario state after: read `b` again. -/
def c5s3 : St String := (getAttr dbC5 "b" c5s2).2

/-- Scenario state after: delete `a`. -/
def c5s4 : St String := delAttr daC5 "a" c5s3

/-- Scenario state after: read `b` again. -/
def c5s5 : St String := (getAttr dbC5 "b" c5s4).2

/-- Scenario state after: delete `b`. -/
def c5s6 : St String := delAttr dbC5 "b" c5s5

/-- Scenario state after: set `a = "new"`. -/
def c5s7 : St String := setAttr daC5 "a" "new" c5s6

/-- A dependency-free property with a plain compute function, used as the
descriptor of the updated attribute in several witnesses. -/
def dPlain : CachedProp String :=
  ⟨[], fun s => (.ok "x", s)⟩

/-- Witness state: `b` (depends on `a`) and `c` (depends on `b`) are both
cached, neither set directly. -/
def wChain : St String :=
  ⟨[("b", "vb"), ("c", "vc")], fun _ => false,
   [("b", ["a"]), ("c", ["b"])], fun _ => 0, fun _ => 0⟩

/-- Witness state: `b` (depends on `a`) cached and set directly. -/
def wDirect : St String :=
  ⟨[("b", "vb")], fun x => x == "b", [("b", ["a"])], fun _ => 0, fun _ => 0⟩

/-- Counterexample state for C3: `y` is cached (not set directly) and
registered with dependency `x`; `x` itself has never been cached. -/
def c3St : St String :=
  ⟨[("y", "v")], fun _ => false, [("y", ["x"])], fun _ => 0, fun _ => 0⟩

/-- Witness state with a dependency cycle between `a` and `b`, both
cached. -/
def wCyc : St String :=
  ⟨[("a", "va"), ("b", "vb")], fun _ => false,
   [("a", ["b"]), ("b", ["a"])], fun _ => 0, fun _ => 0⟩

/-- Witness compute schedule for C6: first attempt fails, second
succeeds. -/
def rC6 : Nat → Except Err String :=
  fun i => if i = 0 then .error "boom" else .ok "val"

/-- Witness descriptor whose compute function always fails. -/
def dFail : CachedProp String :=
  ⟨["a"], fun s => (.error "boom", s)⟩

/-- Witness descriptor with a plain, always-succeeding compute function. -/
def dOk : CachedProp String :=
  ⟨[], fun s => (.ok "w", s)⟩

/-- Witness per-instance LRU table: instance 1 has a cache holding keys
10 and 20 (10 most recent). -/
def wTbl : List (Nat × LruSt Nat Nat) :=
  [(1, ⟨[(10, 11), (20, 21)], 0, 0⟩)]

/-! ## Association-list facts -/

theorem alookup_aremove_self {κ α : Type} [DecidableEq κ] (l : List (κ × α)) (n : κ) :
    alookup (aremove l n) n = none := by
  induction l with
  | nil => simp [aremove, alookup]
  | cons p t ih =>
    obtain ⟨k, v⟩ := p
    by_cases h : k = n
    · simpa [aremove, h] using ih
    · simpa [aremove, alookup, h] using ih

theorem alookup_aremove_ne {κ α : Type} [DecidableEq κ] (l : List (κ × α)) (n x : κ)
    (h : x ≠ n) : alookup (aremove l n) x = alookup l x := by
  induction l with
  | nil => simp [aremove]
  | cons p t ih =>
    obtain ⟨k, v⟩ := p
    by_cases hk : k = n
    · subst hk
      have hx : ¬ (k = x) := fun he => h he.symm
      simp only [aremove, if_pos rfl, alookup, if_neg hx]
      exact ih
    · by_cases hx : k = x
      · subst hx
        simp [aremove, alookup, hk]
      · simp only [aremove, if_neg hk, alookup, if_neg hx]
        exact ih

theorem alookup_aremove_none {κ α : Type} [DecidableEq κ] (l : List (κ × α)) (n x : κ)
    (h : alookup l x = none) : alookup (aremove l n) x = none := by
  by_cases hx : x = n
  · subst hx
    exact alookup_aremove_self l x
  · rw [alookup_aremove_ne l n x hx]
    exact h

theorem aremove_length_le {κ α : Type} [DecidableEq κ] (l : List (κ × α)) (n : κ) :
    (aremove l n).length ≤ l.length := by
  induction l with
  | nil => simp [aremove]
  | cons p t ih =>
    obtain ⟨k, v⟩ := p
    by_cases h : k = n
    · simp only [aremove, if_pos h, List.length_cons]
      omega
    · simp only [aremove, if_neg h, List.length_cons]
      omega

theorem aremove_length_lt {κ α : Type} [DecidableEq κ] (l : List (κ × α)) (n : κ)
    (h : (alookup l n).isSome = true) : (aremove l n).length < l.length := by
  induction l with
  | nil => simp [alookup] at h
  | cons p t ih =>
    obtain ⟨k, v⟩ := p
    by_cases hk : k = n
    · have := aremove_length_le t n
      simp only [aremove, if_pos hk, List.length_cons]
      omega
    · simp only [alookup, if_neg hk] at h
      simp only [aremove, if_neg hk, List.length_cons]
      exact Nat.succ_lt_succ (ih h)

theorem alookup_mem {κ α : Type} [DecidableEq κ] (l : List (κ × α)) (k : κ) (a : α)
    (h : alookup l k = some a) : (k, a) ∈ l := by
  induction l with
  | nil => simp [alookup] at h
  | cons p t ih =>
    obtain ⟨k', v⟩ := p
    by_cases hk : k' = k
    · subst hk
      have hv : v = a := by
        simp [alookup] at h
        exact h
      subst hv
      exact List.mem_cons_self _ _
    · simp only [alookup, if_neg hk] at h
      exact List.mem_cons_of_mem _ (ih h)

theorem alookup_aset_self {κ α : Type} [DecidableEq κ] (l : List (κ × α)) (n : κ) (a : α) :
    alookup (aset l n a) n = some a := by
  induction l with
  | nil => simp [aset, alookup]
  | cons p t ih =>
    obtain ⟨k, v⟩ := p
    by_cases hk : k = n
    · simp [aset, alookup, hk]
    · simp [aset, alookup, hk, ih]

theorem alookup_aset_ne {κ α : Type} [DecidableEq κ] (l : List (κ × α)) (n x : κ) (a : α)
    (h : x ≠ n) : alookup (aset l n a) x = alookup l x := by
  have hnx : ¬ (n = x) := fun he => h he.symm
  induction l with
  | nil => simp only [aset, alookup, if_neg hnx]
  | cons p t ih =>
    obtain ⟨k, v⟩ := p
    by_cases hk : k = n
    · subst hk
      simp only [aset, if_pos rfl, alookup, if_neg hnx]
    · by_cases hx : k = x
      · simp only [aset, if_neg hk, alookup, if_pos hx]
      · simp only [aset, if_neg hk, alookup, if_neg hx]
        exact ih

theorem mem_aset {κ α : Type} [DecidableEq κ] (l : List (κ × α)) (n : κ) (a : α)
    (p : κ × α) (h : p ∈ aset l n a) : p = (n, a) ∨ p ∈ l := by
  induction l with
  | nil =>
    simp only [aset, List.mem_singleton] at h
    exact Or.inl h
  | cons q t ih =>
    obtain ⟨k, v⟩ := q
    by_cases hk : k = n
    · simp only [aset, if_pos hk, List.mem_cons] at h
      rcases h with h | h
      · exact Or.inl h
      · exact Or.inr (List.mem_cons_of_mem _ h)
    · simp only [aset, if_neg hk, List.mem_cons] at h
      rcases h with h | h
      · exact Or.inr (h ▸ List.mem_cons_self _ _)
      · rcases ih h with h | h
        · exact Or.inl h
        · exact Or.inr (List.mem_cons_of_mem _ h)

/-! ## Invariants of one propagation pass -/

theorem pass_depMap {V : Type} (inner : Name → St V → St V) (name : Name)
    (hI : ∀ n t, (inner n t).depMap = t.depMap) :
    ∀ (es : List (Name × List Name)) (t : St V),
      (pass inner name es t).depMap = t.depMap := by
  intro es
  induction es with
  | nil => intro t; rfl
  | cons p rest ih =>
    obtain ⟨dep, deps⟩ := p
    intro t
    simp only [pass]
    split
    · rw [ih, hI]
      rfl
    · exact ih t

theorem pass_calls {V : Type} (inner : Name → St V → St V) (name : Name)
    (hI : ∀ n t y, (inner n t).calls y = t.calls y) :
    ∀ (es : List (Name × List Name)) (t : St V) (y : Name),
      (pass inner name es t).calls y = t.calls y := by
  intro es
  induction es with
  | nil => intro t y; rfl
  | cons p rest ih =>
    obtain ⟨dep, deps⟩ := p
    intro t y
    simp only [pass]
    split
    · rw [ih, hI]
      rfl
    · exact ih t y

theorem pass_flag {V : Type} (inner : Name → St V → St V) (name : Name)
    (hI : ∀ n t y, (inner n t).flag y = t.flag y) :
    ∀ (es : List (Name × List Name)) (t : St V) (y : Name),
      (pass inner name es t).flag y = t.flag y := by
  intro es
  induction es with
  | nil => intro t y; rfl
  | cons p rest ih =>
    obtain ⟨dep, deps⟩ := p
    intro t y
    simp only [pass]
    split
    · rename_i hc
      rw [ih, hI]
      show (if y = dep then false else t.flag y) = t.flag y
      by_cases hy : y = dep
      · rw [if_pos hy, hy, hc.2.2]
      · rw [if_neg hy]
    · exact ih t y

theorem pass_cache_none {V : Type} (inner : Name → St V → St V) (name x : Name)
    (hI : ∀ n t, alookup t.cache x = none → alookup (inner n t).cache x = none) :
    ∀ (es : List (Name × List Name)) (t : St V),
      alookup t.cache x = none → alookup (pass inner name es t).cache x = none := by
  intro es
  induction es with
  | nil => intro t h; exact h
  | cons p rest ih =>
    obtain ⟨dep, deps⟩ := p
    intro t h
    simp only [pass]
    split
    · exact ih _ (hI _ _ (alookup_aremove_none _ _ _ h))
    · exact ih t h

theorem pass_len {V : Type} (inner : Name → St V → St V) (name : Name)
    (hI : ∀ n t, (inner n t).cache.length ≤ t.cache.length) :
    ∀ (es : List (Name × List Name)) (t : St V),
      (pass inner name es t).cache.length ≤ t.cache.length := by
  intro es
  induction es with
  | nil => intro t; exact Nat.le_refl _
  | cons p rest ih =>
    obtain ⟨dep, deps⟩ := p
    intro t
    simp only [pass]
    split
    · calc (pass inner name rest
            (inner dep (bumpResets dep (setFlag dep false (cacheDel dep t))))).cache.length
          ≤ (inner dep (bumpResets dep (setFlag dep false (cacheDel dep t)))).cache.length :=
            ih _
        _ ≤ (aremove t.cache dep).length := hI _ _
        _ ≤ t.cache.length := aremove_length_le _ _
    · exact ih t

theorem pass_flagTrue_slot {V : Type} (inner : Name → St V → St V) (name x : Name)
    (hF : ∀ n t y, (inner n t).flag y = t.flag y)
    (hS : ∀ n t, t.flag x = true → alookup (inner n t).cache x = alookup t.cache x) :
    ∀ (es : List (Name × List Name)) (t : St V),
      t.flag x = true → alookup (pass inner name es t).cache x = alookup t.cache x := by
  intro es
  induction es with
  | nil => intro t _; rfl
  | cons p rest ih =>
    obtain ⟨dep, deps⟩ := p
    intro t hx
    simp only [pass]
    split
    · rename_i hc
      have hxd : x ≠ dep := by
        intro he
        rw [he, hc.2.2] at hx
        exact Bool.false_ne_true hx
      have hXflag :
          (bumpResets dep (setFlag dep false (cacheDel dep t))).flag x = true := by
        show (if x = dep then false else t.flag x) = true
        rw [if_neg hxd]
        exact hx
      calc alookup (pass inner name rest
            (inner dep (bumpResets dep (setFlag dep false (cacheDel dep t))))).cache x
          = alookup (inner dep (bumpResets dep (setFlag dep false (cacheDel dep t)))).cache x := by
            apply ih
            rw [hF]
            exact hXflag
        _ = alookup (aremove t.cache dep) x := hS _ _ hXflag
        _ = alookup t.cache x := alookup_aremove_ne _ _ _ hxd
    · exact ih t hx

theorem pass_resets_none {V : Type} (inner : Name → St V → St V) (name x : Name)
    (hN : ∀ n t, alookup t.cache x = none → alookup (inner n t).cache x = none)
    (hRN : ∀ n t, alookup t.cache x = none → (inner n t).resets x = t.resets x) :
    ∀ (es : List (Name × List Name)) (t : St V),
      alookup t.cache x = none → (pass inner name es t).resets x = t.resets x := by
  intro es
  induction es with
  | nil => intro t _; rfl
  | cons p rest ih =>
    obtain ⟨dep, deps⟩ := p
    intro t h
    simp only [pass]
    split
    · rename_i hc
      have hxd : x ≠ dep := by
        intro he
        rw [← he, h] at hc
        exact Bool.false_ne_true hc.2.1
      have hXnone :
          alookup (bumpResets dep (setFlag dep false (cacheDel dep t))).cache x = none :=
        alookup_aremove_none _ _ _ h
      calc (pass inner name rest
            (inner dep (bumpResets dep (setFlag dep false (cacheDel dep t))))).resets x
          = (inner dep (bumpResets dep (setFlag dep false (cacheDel dep t)))).resets x :=
            ih _ (hN _ _ hXnone)
        _ = (bumpResets dep (setFlag dep false (cacheDel dep t))).resets x := hRN _ _ hXnone
        _ = t.resets x := by
            show (if x = dep then t.resets x + 1 else t.resets x) = t.resets x
            rw [if_neg hxd]
    · exact ih t h

theorem pass_resets_le {V : Type} (inner : Name → St V → St V) (name x : Name)
    (hN : ∀ n t, alookup t.cache x = none → alookup (inner n t).cache x = none)
    (hRN : ∀ n t, alookup t.cache x = none → (inner n t).resets x = t.resets x)
    (hRL : ∀ n t, (inner n t).resets x ≤ t.resets x + 1 ∧
      ((inner n t).resets x ≠ t.resets x → alookup (inner n t).cache x = none)) :
    ∀ (es : List (Name × List Name)) (t : St V),
      (pass inner name es t).resets x ≤ t.resets x + 1 ∧
      ((pass inner name es t).resets x ≠ t.resets x →
        alookup (pass inner name es t).cache x = none) := by
  intro es
  induction es with
  | nil => intro t; exact ⟨Nat.le_succ _, fun h => absurd rfl h⟩
  | cons p rest ih =>
    obtain ⟨dep, deps⟩ := p
    intro t
    simp only [pass]
    split
    · rename_i hc
      by_cases hxd : x = dep
      · subst hxd
        have hXslot :
            alookup (bumpResets x (setFlag x false (cacheDel x t))).cache x = none :=
          alookup_aremove_self _ _
        have hXres :
            (bumpResets x (setFlag x false (cacheDel x t))).resets x = t.resets x + 1 := by
          show (if x = x then t.resets x + 1 else t.resets x) = t.resets x + 1
          rw [if_pos rfl]
        have hIslot : alookup (inner x (bumpResets x (setFlag x false (cacheDel x t)))).cache x = none :=
          hN _ _ hXslot
        have hIres : (inner x (bumpResets x (setFlag x false (cacheDel x t)))).resets x = t.resets x + 1 := by
          rw [hRN _ _ hXslot, hXres]
        constructor
        · rw [pass_resets_none inner name x hN hRN rest _ hIslot, hIres]
        · intro _
          exact pass_cache_none inner name x (hN) rest _ hIslot
      · have hXres :
            (bumpResets dep (setFlag dep false (cacheDel dep t))).resets x = t.resets x := by
          show (if x = dep then t.resets x + 1 else t.resets x) = t.resets x
          rw [if_neg hxd]
        rcases hRL dep (bumpResets dep (setFlag dep false (cacheDel dep t))) with ⟨hle, himp⟩
        by_cases hb :
            (inner dep (bumpResets dep (setFlag dep false (cacheDel dep t)))).resets x
              = t.resets x
        · rcases ih (inner dep (bumpResets dep (setFlag dep false (cacheDel dep t)))) with
            ⟨ihle, ihimp⟩
          constructor
          · rw [hb] at ihle
            exact ihle
          · intro hne
            apply ihimp
            rw [hb]
            exact hne
        · have hIslot :
              alookup (inner dep (bumpResets dep (setFlag dep false (cacheDel dep t)))).cache x
                = none := by
            apply himp
            rw [hXres]
            exact hb
          constructor
          · rw [pass_resets_none inner name x hN hRN rest _ hIslot]
            rw [hXres] at hle
            exact hle
          · intro _
            exact pass_cache_none inner name x hN rest _ hIslot
    · exact ih t

theorem pass_kill {V : Type} (inner : Name → St V → St V) (name : Name)
    (hF : ∀ n t y, (inner n t).flag y = t.flag y)
    (hN : ∀ y n t, alookup t.cache y = none → alookup (inner n t).cache y = none) :
    ∀ (es : List (Name × List Name)) (t : St V) (B : Name) (depsB : List Name),
      (B, depsB) ∈ es → name ∈ depsB → t.flag B = false →
      alookup (pass inner name es t).cache B = none := by
  intro es
  induction es with
  | nil =>
    intro t B depsB hm
    simp at hm
  | cons p rest ih =>
    obtain ⟨dep, deps⟩ := p
    intro t B depsB hm hname hflag
    rcases List.mem_cons.mp hm with he | hm'
    · cases he
      simp only [pass]
      by_cases hs : (alookup t.cache dep).isSome = true
      · rw [if_pos ⟨hname, hs, hflag⟩]
        exact pass_cache_none inner name dep (hN dep) rest _
          (hN dep _ _ (alookup_aremove_self _ _))
      · rw [if_neg (fun hcon => hs hcon.2.1)]
        apply pass_cache_none inner name dep (hN dep) rest
        cases hval : alookup t.cache dep with
        | none => rfl
        | some w =>
          rw [hval] at hs
          exact absurd rfl hs
    · simp only [pass]
      split
      · rename_i hc
        apply ih _ _ _ hm' hname
        rw [hF]
        show (if B = dep then false else t.flag B) = false
        by_cases hBd : B = dep
        · rw [if_pos hBd]
        · rw [if_neg hBd]
          exact hflag
      · exact ih t B depsB hm' hname hflag

theorem pass_nilcache {V : Type} (inner : Name → St V → St V) (name : Name) :
    ∀ (es : List (Name × List Name)) (t : St V), t.cache = [] →
      pass inner name es t = t := by
  intro es
  induction es with
  | nil => intro t _; rfl
  | cons p rest ih =>
    obtain ⟨dep, deps⟩ := p
    intro t h
    simp only [pass]
    rw [if_neg (fun hc => by rw [h] at hc; exact absurd hc.2.1 (by simp [alookup]))]
    exact ih t h

theorem pass_no_dep {V : Type} (inner : Name → St V → St V) (name : Name) :
    ∀ (es : List (Name × List Name)) (t : St V),
      (∀ p ∈ es, name ∉ p.2) → pass inner name es t = t := by
  intro es
  induction es with
  | nil => intro t _; rfl
  | cons p rest ih =>
    obtain ⟨dep, deps⟩ := p
    intro t h
    simp only [pass]
    rw [if_neg (fun hc => h (dep, deps) (List.mem_cons_self _ _) hc.1)]
    exact ih t (fun q hq => h q (List.mem_cons_of_mem _ hq))

theorem pass_irrel {V : Type} (inner1 inner2 : Name → St V → St V) (name : Name)
    (F : Nat)
    (hL : ∀ n t, (inner1 n t).cache.length ≤ t.cache.length)
    (hE : ∀ n t, t.cache.length ≤ F → inner1 n t = inner2 n t) :
    ∀ (es : List (Name × List Name)) (t : St V), t.cache.length ≤ F + 1 →
      pass inner1 name es t = pass inner2 name es t := by
  intro es
  induction es with
  | nil => intro t _; rfl
  | cons p rest ih =>
    obtain ⟨dep, deps⟩ := p
    intro t hlen
    simp only [pass]
    by_cases hc : name ∈ deps ∧ (alookup t.cache dep).isSome = true ∧ t.flag dep = false
    · rw [if_pos hc, if_pos hc]
      have hXlen :
          (bumpResets dep (setFlag dep false (cacheDel dep t))).cache.length ≤ F := by
        have := aremove_length_lt t.cache dep hc.2.1
        show (aremove t.cache dep).length ≤ F
        omega
      calc pass inner1 name rest
            (inner1 dep (bumpResets dep (setFlag dep false (cacheDel dep t))))
          = pass inner2 name rest
            (inner1 dep (bumpResets dep (setFlag dep false (cacheDel dep t)))) := by
            apply ih
            exact le_trans (hL _ _) (le_trans hXlen (Nat.le_succ _))
        _ = pass inner2 name rest
            (inner2 dep (bumpResets dep (setFlag dep false (cacheDel dep t)))) := by
            rw [hE _ _ hXlen]
    · rw [if_neg hc, if_neg hc]
      exact ih t hlen

theorem pass_KD {V : Type} (inner : Name → St V → St V) (name B C : Name)
    (depsC : List Name) (F : Nat)
    (hM : ∀ n t, (inner n t).depMap = t.depMap)
    (hF : ∀ n t y, (inner n t).flag y = t.flag y)
    (hN : ∀ y n t, alookup t.cache y = none → alookup (inner n t).cache y = none)
    (hL : ∀ n t, (inner n t).cache.length ≤ t.cache.length)
    (hKC : ∀ t : St V, t.cache.length < F → (C, depsC) ∈ t.depMap →
      t.flag C = false → alookup (inner B t).cache C = none)
    (hKD : ∀ n (t : St V), t.cache.length < F → (C, depsC) ∈ t.depMap →
      t.flag C = false → (alookup t.cache B).isSome = true →
      alookup (inner n t).cache B = none → alookup (inner n t).cache C = none) :
    ∀ (es : List (Name × List Name)) (t : St V), t.cache.length ≤ F →
      (C, depsC) ∈ t.depMap → t.flag C = false → C ≠ B →
      (alookup t.cache B).isSome = true →
      alookup (pass inner name es t).cache B = none →
      alookup (pass inner name es t).cache C = none := by
  intro es
  induction es with
  | nil =>
    intro t _ _ _ _ hBsome hBnone
    rw [show pass inner name [] t = t from rfl] at hBnone
    rw [hBnone] at hBsome
    exact absurd hBsome (by simp)
  | cons p rest ih =>
    obtain ⟨dep, deps⟩ := p
    intro t hlen hmC hfC hCB hBsome hBnone
    simp only [pass] at hBnone ⊢
    by_cases hc : name ∈ deps ∧ (alookup t.cache dep).isSome = true ∧ t.flag dep = false
    · rw [if_pos hc] at hBnone ⊢
      have hXfC :
          (bumpResets dep (setFlag dep false (cacheDel dep t))).flag C = false := by
        show (if C = dep then false else t.flag C) = false
        by_cases hCd : C = dep
        · rw [if_pos hCd]
        · rw [if_neg hCd]
          exact hfC
      have hXm :
          (C, depsC) ∈ (bumpResets dep (setFlag dep false (cacheDel dep t))).depMap :=
        hmC
      have hXlt :
          (bumpResets dep (setFlag dep false (cacheDel dep t))).cache.length < F :=
        lt_of_lt_of_le (aremove_length_lt _ _ hc.2.1) hlen
      by_cases hdB : dep = B
      · subst hdB
        exact pass_cache_none inner name C (hN C) rest _ (hKC _ hXlt hXm hXfC)
      · have hXB :
            (alookup (bumpResets dep (setFlag dep false (cacheDel dep t))).cache B).isSome
              = true := by
          show (alookup (aremove t.cache dep) B).isSome = true
          rw [alookup_aremove_ne _ _ _ (fun he => hdB he.symm)]
          exact hBsome
        cases h3 : alookup (inner dep (bumpResets dep (setFlag dep false (cacheDel dep t)))).cache B with
        | none =>
          exact pass_cache_none inner name C (hN C) rest _
            (hKD dep _ hXlt hXm hXfC hXB h3)
        | some w =>
          apply ih _ _ _ _ hCB _ hBnone
          · exact le_trans (hL _ _) (le_of_lt hXlt)
          · rw [hM]
            exact hXm
          · rw [hF]
            exact hXfC
          · rw [h3]
            rfl
    · rw [if_neg hc] at hBnone ⊢
      exact ih t hlen hmC hfC hCB hBsome hBnone

/-! ## Invariants of the budgeted recursive propagation -/

theorem rd_depMap {V : Type} :
    ∀ (f : Nat) (name : Name) (s : St V),
      (resetDepsF f name s).depMap = s.depMap := by
  intro f
  induction f with
  | zero => intro name s; rfl
  | succ f ih =>
    intro name s
    exact pass_depMap _ name (fun n t => ih n t) s.depMap s

theorem rd_flag {V : Type} :
    ∀ (f : Nat) (name : Name) (s : St V) (y : Name),
      (resetDepsF f name s).flag y = s.flag y := by
  intro f
  induction f with
  | zero => intro name s y; rfl
  | succ f ih =>
    intro name s y
    exact pass_flag _ name (fun n t z => ih n t z) s.depMap s y

theorem rd_calls {V : Type} :
    ∀ (f : Nat) (name : Name) (s : St V) (y : Name),
      (resetDepsF f name s).calls y = s.calls y := by
  intro f
  induction f with
  | zero => intro name s y; rfl
  | succ f ih =>
    intro name s y
    exact pass_calls _ name (fun n t z => ih n t z) s.depMap s y

theorem rd_cache_none {V : Type} :
    ∀ (f : Nat) (name x : Name) (s : St V),
      alookup s.cache x = none → alookup (resetDepsF f name s).cache x = none := by
  intro f
  induction f with
  | zero => intro name x s h; exact h
  | succ f ih =>
    intro name x s h
    exact pass_cache_none _ name x (fun n t ht => ih n x t ht) s.depMap s h

theorem rd_len {V : Type} :
    ∀ (f : Nat) (name : Name) (s : St V),
      (resetDepsF f name s).cache.length ≤ s.cache.length := by
  intro f
  induction f with
  | zero => intro name s; exact Nat.le_refl _
  | succ f ih =>
    intro name s
    exact pass_len _ name (fun n t => ih n t) s.depMap s

theorem rd_flagTrue_slot {V : Type} :
    ∀ (f : Nat) (name x : Name) (s : St V), s.flag x = true →
      alookup (resetDepsF f name s).cache x = alookup s.cache x := by
  intro f
  induction f with
  | zero => intro name x s _; rfl
  | succ f ih =>
    intro name x s h
    exact pass_flagTrue_slot _ name x (fun n t z => rd_flag f n t z)
      (fun n t ht => ih n x t ht) s.depMap s h

theorem rd_resets_none {V : Type} :
    ∀ (f : Nat) (name x : Name) (s : St V), alookup s.cache x = none →
      (resetDepsF f name s).resets x = s.resets x := by
  intro f
  induction f with
  | zero => intro name x s _; rfl
  | succ f ih =>
    intro name x s h
    exact pass_resets_none _ name x (fun n t ht => rd_cache_none f n x t ht)
      (fun n t ht => ih n x t ht) s.depMap s h

theorem rd_resets_le {V : Type} :
    ∀ (f : Nat) (name x : Name) (s : St V),
      (resetDepsF f name s).resets x ≤ s.resets x + 1 ∧
      ((resetDepsF f name s).resets x ≠ s.resets x →
        alookup (resetDepsF f name s).cache x = none) := by
  intro f
  induction f with
  | zero => intro name x s; exact ⟨Nat.le_succ _, fun h => absurd rfl h⟩
  | succ f ih =>
    intro name x s
    exact pass_resets_le _ name x (fun n t ht => rd_cache_none f n x t ht)
      (fun n t ht => rd_resets_none f n x t ht) (fun n t => ih n x t) s.depMap s

theorem rd_kill {V : Type} :
    ∀ (f : Nat) (name : Name) (s : St V) (B : Name) (depsB : List Name),
      (B, depsB) ∈ s.depMap → name ∈ depsB → s.flag B = false →
      alookup (resetDepsF (f + 1) name s).cache B = none := by
  intro f name s B depsB hm hname hflag
  exact pass_kill _ name (fun n t z => rd_flag f n t z)
    (fun y n t ht => rd_cache_none f n y t ht) s.depMap s B depsB hm hname hflag

theorem rd_nilcache {V : Type} :
    ∀ (f : Nat) (name : Name) (s : St V), s.cache = [] →
      resetDepsF f name s = s := by
  intro f
  induction f with
  | zero => intro name s _; rfl
  | succ f _ =>
    intro name s h
    exact pass_nilcache _ name s.depMap s h

theorem rd_no_dep {V : Type} :
    ∀ (f : Nat) (name : Name) (s : St V), (∀ p ∈ s.depMap, name ∉ p.2) →
      resetDepsF f name s = s := by
  intro f
  induction f with
  | zero => intro name s _; rfl
  | succ f _ =>
    intro name s h
    exact pass_no_dep _ name s.depMap s h

theorem rd_irrel {V : Type} :
    ∀ (f g : Nat) (name : Name) (s : St V),
      s.cache.length ≤ f → s.cache.length ≤ g →
      resetDepsF (f + 1) name s = resetDepsF (g + 1) name s := by
  intro f
  induction f with
  | zero =>
    intro g name s hf _
    have hnil : s.cache = [] := List.length_eq_zero.mp (Nat.le_zero.mp hf)
    rw [rd_nilcache _ name s hnil, rd_nilcache _ name s hnil]
  | succ f ih =>
    intro g name s hf hg
    cases g with
    | zero =>
      have hnil : s.cache = [] := List.length_eq_zero.mp (Nat.le_zero.mp hg)
      rw [rd_nilcache _ name s hnil, rd_nilcache _ name s hnil]
    | succ g =>
      show pass (resetDepsF (f + 1)) name s.depMap s
        = pass (resetDepsF (g + 1)) name s.depMap s
      apply pass_irrel (resetDepsF (f + 1)) (resetDepsF (g + 1)) name (min f g)
        (rd_len (f + 1)) ?_ s.depMap s ?_
      · intro n t ht
        exact ih g n t (le_trans ht (Nat.min_le_left _ _))
          (le_trans ht (Nat.min_le_right _ _))
      · omega

theorem rd_KD {V : Type} (B C : Name) (depsC : List Name) (hCB : C ≠ B)
    (hBC : B ∈ depsC) :
    ∀ (f : Nat) (name : Name) (s : St V), s.cache.length < f →
      (C, depsC) ∈ s.depMap → s.flag C = false →
      (alookup s.cache B).isSome = true →
      alookup (resetDepsF f name s).cache B = none →
      alookup (resetDepsF f name s).cache C = none := by
  intro f
  induction f with
  | zero =>
    intro name s h
    exact absurd h (by omega)
  | succ f ih =>
    intro name s hlen hm hfc hbs hbn
    show alookup (pass (resetDepsF f) name s.depMap s).cache C = none
    refine pass_KD (resetDepsF f) name B C depsC f (rd_depMap f) (rd_flag f)
      (fun y n t ht => rd_cache_none f n y t ht) (rd_len f) ?_ ?_ s.depMap s
      (by omega) hm hfc hCB hbs hbn
    · intro t hlt hm' hf'
      obtain ⟨f', rfl⟩ : ∃ f', f = f' + 1 := ⟨f - 1, by omega⟩
      exact rd_kill f' B t C depsC hm' hBC hf'
    · intro n t hlt hm' hf' hbs' hbn'
      exact ih n t hlt hm' hf' hbs' hbn'

/-! ## Shape of `_update` before its propagation step -/

theorem addDep_cache {V : Type} (deps : List Name) (n : Name) (s : St V) :
    (addDep deps n s).cache = s.cache := by
  unfold addDep
  split <;> rfl

theorem addDep_flag {V : Type} (deps : List Name) (n : Name) (s : St V) :
    (addDep deps n s).flag = s.flag := by
  unfold addDep
  split <;> rfl

theorem addDep_calls {V : Type} (deps : List Name) (n : Name) (s : St V) :
    (addDep deps n s).calls = s.calls := by
  unfold addDep
  split <;> rfl

theorem addDep_resets {V : Type} (deps : List Name) (n : Name) (s : St V) :
    (addDep deps n s).resets = s.resets := by
  unfold addDep
  split <;> rfl

theorem addDep_depMap_ne {V : Type} (deps : List Name) (n x : Name) (s : St V)
    (h : x ≠ n) : alookup (addDep deps n s).depMap x = alookup s.depMap x := by
  unfold addDep
  split
  · rfl
  · exact alookup_aset_ne _ _ _ _ h

theorem addDep_depMap_self {V : Type} (deps : List Name) (n : Name) (s : St V)
    (h : deps ≠ []) : alookup (addDep deps n s).depMap n = some deps := by
  unfold addDep
  rw [if_neg h]
  exact alookup_aset_self _ _ _

theorem preUpdate_set_new {V : Type} (deps : List Name) (n : Name) (v : V) (s : St V)
    (h : alookup s.cache n = none) :
    preUpdate deps n (some v) s = setFlag n true (cacheSet n v (addDep deps n s)) := by
  simp [preUpdate, h]

theorem preUpdate_set_over {V : Type} (deps : List Name) (n : Name) (v : V) (s : St V)
    (w : V) (h : alookup s.cache n = some w) :
    preUpdate deps n (some v) s = setFlag n true (cacheSet n v s) := by
  simp [preUpdate, h]

theorem preUpdate_del_new {V : Type} (deps : List Name) (n : Name) (s : St V)
    (h : alookup s.cache n = none) :
    preUpdate deps n none s = setFlag n false (addDep deps n s) := by
  simp [preUpdate, h, addDep_cache]

theorem preUpdate_del_cached {V : Type} (deps : List Name) (n : Name) (s : St V)
    (w : V) (h : alookup s.cache n = some w) :
    preUpdate deps n none s = setFlag n false (cacheDel n s) := by
  simp [preUpdate, h]

theorem preUpdate_cache_ne {V : Type} (deps : List Name) (n x : Name) (arg : Option V)
    (s : St V) (h : x ≠ n) :
    alookup (preUpdate deps n arg s).cache x = alookup s.cache x := by
  have hnx : ¬ (n = x) := fun he => h he.symm
  cases arg with
  | some v =>
    cases hn : alookup s.cache n with
    | none =>
      rw [preUpdate_set_new deps n v s hn]
      show alookup ((n, v) :: aremove (addDep deps n s).cache n) x = alookup s.cache x
      simp only [alookup, if_neg hnx]
      rw [addDep_cache]
      exact alookup_aremove_ne _ _ _ h
    | some w =>
      rw [preUpdate_set_over deps n v s w hn]
      show alookup ((n, v) :: aremove s.cache n) x = alookup s.cache x
      simp only [alookup, if_neg hnx]
      exact alookup_aremove_ne _ _ _ h
  | none =>
    cases hn : alookup s.cache n with
    | none =>
      rw [preUpdate_del_new deps n s hn]
      show alookup (addDep deps n s).cache x = alookup s.cache x
      rw [addDep_cache]
    | some w =>
      rw [preUpdate_del_cached deps n s w hn]
      show alookup (aremove s.cache n) x = alookup s.cache x
      exact alookup_aremove_ne _ _ _ h

theorem preUpdate_flag_ne {V : Type} (deps : List Name) (n x : Name) (arg : Option V)
    (s : St V) (h : x ≠ n) : (preUpdate deps n arg s).flag x = s.flag x := by
  cases arg with
  | some v =>
    cases hn : alookup s.cache n with
    | none =>
      rw [preUpdate_set_new deps n v s hn]
      show (if x = n then true else (cacheSet n v (addDep deps n s)).flag x) = s.flag x
      rw [if_neg h]
      show (addDep deps n s).flag x = s.flag x
      rw [addDep_flag]
    | some w =>
      rw [preUpdate_set_over deps n v s w hn]
      show (if x = n then true else s.flag x) = s.flag x
      rw [if_neg h]
  | none =>
    cases hn : alookup s.cache n with
    | none =>
      rw [preUpdate_del_new deps n s hn]
      show (if x = n then false else (addDep deps n s).flag x) = s.flag x
      rw [if_neg h]
      show (addDep deps n s).flag x = s.flag x
      rw [addDep_flag]
    | some w =>
      rw [preUpdate_del_cached deps n s w hn]
      show (if x = n then false else s.flag x) = s.flag x
      rw [if_neg h]

theorem preUpdate_flag_self {V : Type} (deps : List Name) (n : Name) (arg : Option V)
    (s : St V) : (preUpdate deps n arg s).flag n = arg.isSome := by
  cases arg with
  | some v =>
    cases hn : alookup s.cache n with
    | none =>
      rw [preUpdate_set_new deps n v s hn]
      show (if n = n then true else (cacheSet n v (addDep deps n s)).flag n) = true
      rw [if_pos rfl]
    | some w =>
      rw [preUpdate_set_over deps n v s w hn]
      show (if n = n then true else s.flag n) = true
      rw [if_pos rfl]
  | none =>
    cases hn : alookup s.cache n with
    | none =>
      rw [preUpdate_del_new deps n s hn]
      show (if n = n then false else (addDep deps n s).flag n) = false
      rw [if_pos rfl]
    | some w =>
      rw [preUpdate_del_cached deps n s w hn]
      show (if n = n then false else s.flag n) = false
      rw [if_pos rfl]

theorem preUpdate_depMap_ne {V : Type} (deps : List Name) (n x : Name) (arg : Option V)
    (s : St V) (h : x ≠ n) :
    alookup (preUpdate deps n arg s).depMap x = alookup s.depMap x := by
  cases arg with
  | some v =>
    cases hn : alookup s.cache n with
    | none =>
      rw [preUpdate_set_new deps n v s hn]
      exact addDep_depMap_ne _ _ _ _ h
    | some w =>
      rw [preUpdate_set_over deps n v s w hn]
      rfl
  | none =>
    cases hn : alookup s.cache n with
    | none =>
      rw [preUpdate_del_new deps n s hn]
      exact addDep_depMap_ne _ _ _ _ h
    | some w =>
      rw [preUpdate_del_cached deps n s w hn]
      rfl

theorem preUpdate_resets {V : Type} (deps : List Name) (n : Name) (arg : Option V)
    (s : St V) : (preUpdate deps n arg s).resets = s.resets := by
  cases arg with
  | some v =>
    cases hn : alookup s.cache n with
    | none =>
      rw [preUpdate_set_new deps n v s hn]
      show (addDep deps n s).resets = s.resets
      rw [addDep_resets]
    | some w =>
      rw [preUpdate_set_over deps n v s w hn]
      rfl
  | none =>
    cases hn : alookup s.cache n with
    | none =>
      rw [preUpdate_del_new deps n s hn]
      show (addDep deps n s).resets = s.resets
      rw [addDep_resets]
    | some w =>
      rw [preUpdate_del_cached deps n s w hn]
      rfl

theorem preUpdate_del_none {V : Type} (deps : List Name) (n : Name) (s : St V) :
    alookup (preUpdate deps n none s).cache n = none := by
  cases hn : alookup s.cache n with
  | none =>
    rw [preUpdate_del_new deps n s hn]
    show alookup (addDep deps n s).cache n = none
    rw [addDep_cache]
    exact hn
  | some w =>
    rw [preUpdate_del_cached deps n s w hn]
    exact alookup_aremove_self _ _

theorem preUpdate_cache_self_set {V : Type} (deps : List Name) (n : Name) (v : V)
    (s : St V) : alookup (preUpdate deps n (some v) s).cache n = some v := by
  cases hn : alookup s.cache n with
  | none =>
    rw [preUpdate_set_new deps n v s hn]
    show alookup ((n, v) :: aremove (addDep deps n s).cache n) n = some v
    simp [alookup]
  | some w =>
    rw [preUpdate_set_over deps n v s w hn]
    show alookup ((n, v) :: aremove s.cache n) n = some v
    simp [alookup]

theorem preUpdate_depMap_uncached {V : Type} (deps : List Name) (n : Name)
    (arg : Option V) (s : St V) (h : alookup s.cache n = none) (hd : deps ≠ []) :
    alookup (preUpdate deps n arg s).depMap n = some deps := by
  cases arg with
  | some v =>
    rw [preUpdate_set_new deps n v s h]
    exact addDep_depMap_self _ _ _ hd
  | none =>
    rw [preUpdate_del_new deps n s h]
    exact addDep_depMap_self _ _ _ hd

theorem mem_aset_of_ne {κ α : Type} [DecidableEq κ] (l : List (κ × α)) (n x : κ)
    (a b : α) (hm : (x, b) ∈ l) (h : x ≠ n) : (x, b) ∈ aset l n a := by
  induction l with
  | nil => simp at hm
  | cons q t ih =>
    obtain ⟨k, v⟩ := q
    rcases List.mem_cons.mp hm with he | hm'
    · cases he
      simp only [aset, if_neg h]
      exact List.mem_cons_self _ _
    · by_cases hk : k = n
      · simp only [aset, if_pos hk]
        exact List.mem_cons_of_mem _ hm'
      · simp only [aset, if_neg hk]
        exact List.mem_cons_of_mem _ (ih hm')

/-! ## Claims -/

/-- C1: Dependency invalidation propagates.  If attribute `B` is registered
in the dependency map with `A` among its dependencies, and `B` currently
has a cached value that was not set directly, then setting or deleting `A`
removes `B`'s cached slot; and transitively, any attribute `C` registered
as depending on `B`, cached and not set directly, loses its slot in the
same pass.  (A cached attribute with declared dependencies is always
registered, since both `__get__` and `_update` register it before touching
the slot.) -/
theorem c1_dependency_invalidation {V : Type} (dA : CachedProp V) (A B : Name)
    (depsB : List Name) (v : V) (s : St V)
    (hmap : alookup s.depMap B = some depsB) (hAB : A ∈ depsB)
    (hcached : (alookup s.cache B).isSome = true) (hflag : s.flag B = false)
    (hBA : B ≠ A) :
    alookup (setAttr dA A v s).cache B = none ∧
    alookup (delAttr dA A s).cache B = none ∧
    (∀ C depsC, alookup s.depMap C = some depsC → B ∈ depsC →
      s.flag C = false → C ≠ A → C ≠ B →
      alookup (setAttr dA A v s).cache C = none ∧
      alookup (delAttr dA A s).cache C = none) := by
  have main : ∀ arg : Option V,
      alookup (update dA.deps A arg s).cache B = none := by
    intro arg
    have htm : alookup (preUpdate dA.deps A arg s).depMap B = some depsB := by
      rw [preUpdate_depMap_ne _ _ _ _ _ hBA]
      exact hmap
    have htf : (preUpdate dA.deps A arg s).flag B = false := by
      rw [preUpdate_flag_ne _ _ _ _ _ hBA]
      exact hflag
    exact rd_kill (preUpdate dA.deps A arg s).cache.length A
      (preUpdate dA.deps A arg s) B depsB (alookup_mem _ _ _ htm) hAB htf
  have mainC : ∀ (arg : Option V) (C : Name) (depsC : List Name),
      alookup s.depMap C = some depsC → B ∈ depsC → s.flag C = false →
      C ≠ A → C ≠ B → alookup (update dA.deps A arg s).cache C = none := by
    intro arg C depsC hmC hBC hfC hCA hCB
    have htmC : (C, depsC) ∈ (preUpdate dA.deps A arg s).depMap := by
      apply alookup_mem
      rw [preUpdate_depMap_ne _ _ _ _ _ hCA]
      exact hmC
    have htfC : (preUpdate dA.deps A arg s).flag C = false := by
      rw [preUpdate_flag_ne _ _ _ _ _ hCA]
      exact hfC
    have htB : (alookup (preUpdate dA.deps A arg s).cache B).isSome = true := by
      rw [preUpdate_cache_ne _ _ _ _ _ hBA]
      exact hcached
    exact rd_KD B C depsC hCB hBC ((preUpdate dA.deps A arg s).cache.length + 1)
      A (preUpdate dA.deps A arg s) (Nat.lt_succ_self _) htmC htfC htB (main arg)
  exact ⟨main (some v), main none,
    fun C depsC hmC hBC hfC hCA hCB =>
      ⟨mainC (some v) C depsC hmC hBC hfC hCA hCB,
       mainC none C depsC hmC hBC hfC hCA hCB⟩⟩

/-- C1 witness: on the chain `b` depends on `a`, `c` depends on `b`, with
`b` and `c` cached and not set directly, setting or deleting `a` clears
both. -/
theorem c1_witness :
    alookup (setAttr dPlain "a" "z" wChain).cache "b" = none ∧
    alookup (delAttr dPlain "a" wChain).cache "b" = none ∧
    (∀ C depsC, alookup wChain.depMap C = some depsC → "b" ∈ depsC →
      wChain.flag C = false → C ≠ "a" → C ≠ "b" →
      alookup (setAttr dPlain "a" "z" wChain).cache C = none ∧
      alookup (delAttr dPlain "a" wChain).cache C = none) :=
  c1_dependency_invalidation dPlain "a" "b" ["a"] "z" wChain rfl (by decide)
    rfl rfl (by decide)

/-- C2: Set-directly protection.  If `B`'s cached value was supplied by
explicit assignment (flag true), setting or deleting any other attribute
`A` — in particular one that `B` depends on — leaves `B`'s cached value
and its set-directly flag unchanged. -/
theorem c2_set_directly_protection {V : Type} (dA : CachedProp V) (A B : Name)
    (depsB : List Name) (v vB : V) (s : St V)
    (hmap : alookup s.depMap B = some depsB) (hAB : A ∈ depsB)
    (hcached : alookup s.cache B = some vB) (hflag : s.flag B = true)
    (hBA : B ≠ A) :
    (alookup (setAttr dA A v s).cache B = some vB ∧
      (setAttr dA A v s).flag B = true) ∧
    (alookup (delAttr dA A s).cache B = some vB ∧
      (delAttr dA A s).flag B = true) := by
  have main : ∀ arg : Option V,
      alookup (update dA.deps A arg s).cache B = some vB ∧
      (update dA.deps A arg s).flag B = true := by
    intro arg
    have htf : (preUpdate dA.deps A arg s).flag B = true := by
      rw [preUpdate_flag_ne _ _ _ _ _ hBA]
      exact hflag
    constructor
    · have h1 := rd_flagTrue_slot ((preUpdate dA.deps A arg s).cache.length + 1)
        A B (preUpdate dA.deps A arg s) htf
      rw [preUpdate_cache_ne _ _ _ _ _ hBA] at h1
      rw [hcached] at h1
      exact h1
    · have h2 := rd_flag ((preUpdate dA.deps A arg s).cache.length + 1)
        A (preUpdate dA.deps A arg s) B
      rw [htf] at h2
      exact h2
  exact ⟨main (some v), main none⟩

/-- C2 witness: `b` depends on `a` and was set directly; setting or
deleting `a` leaves its value `"vb"` and its flag in place. -/
theorem c2_witness :
    (alookup (setAttr dPlain "a" "z" wDirect).cache "b" = some "vb" ∧
      (setAttr dPlain "a" "z" wDirect).flag "b" = true) ∧
    (alookup (delAttr dPlain "a" wDirect).cache "b" = some "vb" ∧
      (delAttr dPlain "a" wDirect).flag "b" = true) :=
  c2_set_directly_protection dPlain "a" "b" ["a"] "z" "vb" wDirect rfl (by decide)
    rfl rfl (by decide)

/-- C3 counterexample: deleting the never-cached attribute `x` is not a
no-op.  In `c3St`, `x` has no cached value, while `y` is cached (not set
directly) and registered as depending on `x`; deleting `x` nevertheless
runs dependency-reset propagation and deletes `y`'s cached value. -/
theorem c3_counterexample :
    alookup c3St.cache "x" = none ∧
    alookup c3St.cache "y" = some "v" ∧
    c3St.flag "y" = false ∧
    alookup (delAttr dPlain "x" c3St).cache "y" = none :=
  ⟨rfl, rfl, rfl, rfl⟩

/-- C3 amended: deleting a never-cached attribute raises no exception
(`_update` is total) and leaves the attribute's own slot absent, but it is
not a full no-op: it sets the attribute's set-directly flag to false
(leaving every other flag unchanged), registers the attribute's dependency
entry in the class-level map when it declares dependencies, and still runs
the same dependency-reset propagation as any delete — so cached,
non-set-directly dependents are invalidated.  Only when no registered
attribute depends on it (and it does not list itself) are the cache slots
untouched. -/
theorem c3_amended_delete_uncached {V : Type} (d : CachedProp V) (X : Name)
    (s : St V) (h : alookup s.cache X = none) :
    alookup (delAttr d X s).cache X = none ∧
    (delAttr d X s).flag X = false ∧
    (∀ y, y ≠ X → (delAttr d X s).flag y = s.flag y) ∧
    (d.deps ≠ [] → alookup (delAttr d X s).depMap X = some d.deps) ∧
    (X ∉ d.deps → (∀ p ∈ s.depMap, X ∉ p.2) → (delAttr d X s).cache = s.cache) := by
  refine ⟨?_, ?_, ?_, ?_, ?_⟩
  · exact rd_cache_none _ X X _ (preUpdate_del_none d.deps X s)
  · have h2 := rd_flag ((preUpdate d.deps X none s).cache.length + 1) X
      (preUpdate d.deps X none s) X
    rw [preUpdate_flag_self] at h2
    exact h2
  · intro y hy
    have h3 := rd_flag ((preUpdate d.deps X none s).cache.length + 1) X
      (preUpdate d.deps X none s) y
    rw [preUpdate_flag_ne _ _ _ _ _ hy] at h3
    exact h3
  · intro hd
    have h4 := rd_depMap ((preUpdate d.deps X none s).cache.length + 1) X
      (preUpdate d.deps X none s)
    show alookup (resetDependents X (preUpdate d.deps X none s)).depMap X = some d.deps
    show alookup (resetDepsF ((preUpdate d.deps X none s).cache.length + 1) X
      (preUpdate d.deps X none s)).depMap X = some d.deps
    rw [h4]
    exact preUpdate_depMap_uncached d.deps X none s h hd
  · intro hself hall
    show (resetDependents X (preUpdate d.deps X none s)).cache = s.cache
    rw [preUpdate_del_new d.deps X s h]
    have hnone : ∀ p ∈ (setFlag X false (addDep d.deps X s)).depMap, X ∉ p.2 := by
      intro p hp
      have hp' : p ∈ (addDep d.deps X s).depMap := hp
      unfold addDep at hp'
      by_cases hd : d.deps = []
      · rw [if_pos hd] at hp'
        exact hall p hp'
      · rw [if_neg hd] at hp'
        rcases mem_aset _ _ _ _ hp' with he | hm
        · rw [he]
          exact hself
        · exact hall p hm
    show (resetDepsF ((setFlag X false (addDep d.deps X s)).cache.length + 1) X
      (setFlag X false (addDep d.deps X s))).cache = s.cache
    rw [rd_no_dep _ X _ hnone]
    show (addDep d.deps X s).cache = s.cache
    rw [addDep_cache]

/-- C3 amended witness: deleting the never-touched attribute with
dependencies `["a"]` on a fresh instance. -/
theorem c3_amended_witness :
    alookup (delAttr dFail "x" (emptySt String)).cache "x" = none ∧
    (delAttr dFail "x" (emptySt String)).flag "x" = false ∧
    (∀ y, y ≠ "x" → (delAttr dFail "x" (emptySt String)).flag y
      = (emptySt String).flag y) ∧
    (dFail.deps ≠ [] →
      alookup (delAttr dFail "x" (emptySt String)).depMap "x" = some dFail.deps) ∧
    ("x" ∉ dFail.deps → (∀ p ∈ (emptySt String).depMap, "x" ∉ p.2) →
      (delAttr dFail "x" (emptySt String)).cache = (emptySt String).cache) :=
  c3_amended_delete_uncached dFail "x" (emptySt String) rfl

/-- C7: Propagation terminates and is idempotent in its recursion budget —
any two budgets of at least `cache.length + 1` produce the same state, even
when the registered dependency sets form a cycle (no acyclicity is
assumed) — and during the propagation pass of any set or delete, each
attribute is invalidated at most once. -/
theorem c7_propagation_terminates {V : Type} (deps : List Name) (X : Name)
    (arg : Option V) (s : St V) (f g : Nat)
    (hf : s.cache.length + 1 ≤ f) (hg : s.cache.length + 1 ≤ g) :
    resetDepsF f X s = resetDepsF g X s ∧
    (∀ x, (update deps X arg s).resets x ≤ s.resets x + 1) := by
  constructor
  · obtain ⟨f', rfl⟩ : ∃ f', f = f' + 1 := ⟨f - 1, by omega⟩
    obtain ⟨g', rfl⟩ : ∃ g', g = g' + 1 := ⟨g - 1, by omega⟩
    exact rd_irrel f' g' X s (by omega) (by omega)
  · intro x
    have h1 := (rd_resets_le ((preUpdate deps X arg s).cache.length + 1) X x
      (preUpdate deps X arg s)).1
    rw [preUpdate_resets] at h1
    exact h1

/-- C7 witness: a two-cycle `a` depends on `b`, `b` depends on `a`, both
cached; the pass stabilizes at any sufficient budget and invalidates each
attribute at most once. -/
theorem c7_witness :
    resetDepsF 3 "a" wCyc = resetDepsF 7 "a" wCyc ∧
    (∀ x, (update [] "a" none wCyc).resets x ≤ wCyc.resets x + 1) :=
  c7_propagation_terminates [] "a" none wCyc 3 7 (by decide) (by decide)

theorem reads_hit {V : Type} (d : CachedProp V) (n : Name) (v : V) :
    ∀ (N : Nat) (s : St V), alookup s.cache n = some v →
      reads d n N s = (List.replicate N (Except.ok v), s) := by
  intro N
  induction N with
  | zero => intro s _; rfl
  | succ N ih =>
    intro s h
    have hg : getAttr d n s = (.ok v, s) := by
      simp only [getAttr, h]
    simp only [reads, hg, ih s h, List.replicate_succ]

/-- C4: Compute at most once on read.  If the attribute has no cached slot
and the first read computes successfully, then the compute function was
invoked exactly once (ghost call counter), the value is cached, and any
number of consecutive reads returns that same value with the same final
state — no recomputation.  The compute function is only assumed not to
recurse into the same attribute (`hfget`). -/
theorem c4_compute_once {V : Type} (d : CachedProp V) (n : Name) (s0 s1 : St V)
    (v : V)
    (hmiss : alookup s0.cache n = none)
    (hfget : ∀ t, ((d.fget t).2).calls n = t.calls n)
    (hfirst : getAttr d n s0 = (.ok v, s1)) :
    s1.calls n = s0.calls n + 1 ∧ alookup s1.cache n = some v ∧
    ∀ N, reads d n (N + 1) s0 = (List.replicate (N + 1) (Except.ok v), s1) := by
  have horig := hfirst
  simp only [getAttr, hmiss] at hfirst
  cases hfv : d.fget (addDep d.deps n s0) with
  | mk r s2 =>
    rw [hfv] at hfirst
    cases r with
    | error e => simp at hfirst
    | ok w =>
      simp only [Prod.mk.injEq, Except.ok.injEq] at hfirst
      obtain ⟨hw, hs1⟩ := hfirst
      subst hs1
      have hw' := hw.symm
      subst hw'
      have hcalls : s2.calls n = s0.calls n := by
        have hx := hfget (addDep d.deps n s0)
        rw [hfv] at hx
        rw [addDep_calls] at hx
        exact hx
      have h1 : (setFlag n false (cacheSet n v (bumpCalls n s2))).calls n
          = s0.calls n + 1 := by
        show (if n = n then s2.calls n + 1 else s2.calls n) = s0.calls n + 1
        rw [if_pos rfl, hcalls]
      have h2 : alookup (setFlag n false (cacheSet n v (bumpCalls n s2))).cache n
          = some v := by
        show alookup ((n, v) :: aremove (bumpCalls n s2).cache n) n = some v
        simp [alookup]
      refine ⟨h1, h2, ?_⟩
      intro N
      simp only [reads, horig]
      rw [reads_hit d n v N _ h2, List.replicate_succ]

/-- C4 witness: a fresh instance, a plain compute function returning
`"w"`. -/
theorem c4_witness :
    ((getAttr dOk "a" (emptySt String)).2).calls "a"
      = (emptySt String).calls "a" + 1 ∧
    alookup ((getAttr dOk "a" (emptySt String)).2).cache "a" = some "w" ∧
    ∀ N, reads dOk "a" (N + 1) (emptySt String)
      = (List.replicate (N + 1) (Except.ok "w"), (getAttr dOk "a" (emptySt String)).2) :=
  c4_compute_once dOk "a" (emptySt String) ((getAttr dOk "a" (emptySt String)).2)
    "w" rfl (fun t => rfl) rfl

/-- C5: The spec's concrete scenario.  With `a` computing `"cached"` and
`b` (depending on `a`) computing `self.a + ".xxx"`, the sequence
read `b`; set `b = "XXX"`; read `b`; delete `a`; read `b`; delete `b`;
set `a = "new"`; read `b` yields `"cached.xxx"`, `"XXX"`, `"XXX"` (the
set-directly flag protects `b` from the deletion of `a`), and finally
`"new.xxx"`. -/
theorem c5_scenario_results :
    (getAttr dbC5 "b" c5s0).1 = Except.ok "cached.xxx" ∧
    (getAttr dbC5 "b" c5s2).1 = Except.ok "XXX" ∧
    (getAttr dbC5 "b" c5s4).1 = Except.ok "XXX" ∧
    (getAttr dbC5 "b" c5s7).1 = Except.ok "new.xxx" :=
  ⟨rfl, rfl, rfl, rfl⟩

/-- C10: On a miss of an attribute that declares dependencies, the
dependency entry is registered in the class-level map in the state passed
to the compute function — that is, before the compute function is invoked.
Consequently, if the compute function raises (modelled as returning its
error with the state it received), the error propagates, the cache slot
and the set-directly flag are unchanged, yet the dependency-map entry
persists in the resulting state. -/
theorem c10_registration_precedes_compute {V : Type} (d : CachedProp V)
    (n : Name) (s : St V) (e : Err)
    (hmiss : alookup s.cache n = none) (hdeps : d.deps ≠ [])
    (hfail : d.fget (addDep d.deps n s) = (.error e, addDep d.deps n s)) :
    alookup (addDep d.deps n s).depMap n = some d.deps ∧
    getAttr d n s = (.error e, bumpCalls n (addDep d.deps n s)) ∧
    alookup (getAttr d n s).2.cache n = none ∧
    (getAttr d n s).2.flag n = s.flag n ∧
    alookup (getAttr d n s).2.depMap n = some d.deps := by
  have h1 : alookup (addDep d.deps n s).depMap n = some d.deps :=
    addDep_depMap_self _ _ _ hdeps
  have h2 : getAttr d n s = (.error e, bumpCalls n (addDep d.deps n s)) := by
    simp only [getAttr, hmiss]
    rw [hfail]
  refine ⟨h1, h2, ?_, ?_, ?_⟩
  · rw [h2]
    show alookup (addDep d.deps n s).cache n = none
    rw [addDep_cache]
    exact hmiss
  · rw [h2]
    show (addDep d.deps n s).flag n = s.flag n
    rw [addDep_flag]
  · rw [h2]
    exact h1

/-- C10 witness: attribute `x` declaring dependency `a`, whose compute
function always fails, read on a fresh instance. -/
theorem c10_witness :
    alookup (addDep dFail.deps "x" (emptySt String)).depMap "x" = some dFail.deps ∧
    getAttr dFail "x" (emptySt String)
      = (.error "boom", bumpCalls "x" (addDep dFail.deps "x" (emptySt String))) ∧
    alookup (getAttr dFail "x" (emptySt String)).2.cache "x" = none ∧
    (getAttr dFail "x" (emptySt String)).2.flag "x" = (emptySt String).flag "x" ∧
    alookup (getAttr dFail "x" (emptySt String)).2.depMap "x" = some dFail.deps :=
  c10_registration_precedes_compute dFail "x" (emptySt String) "boom" rfl
    (by decide) rfl

theorem reads_split {V : Type} (d : CachedProp V) (n : Name) :
    ∀ (a b : Nat) (s : St V),
      reads d n (a + b) s
        = ((reads d n a s).1 ++ (reads d n b (reads d n a s).2).1,
           (reads d n b (reads d n a s).2).2) := by
  intro a
  induction a with
  | zero =>
    intro b s
    rw [Nat.zero_add]
    simp [reads]
  | succ a ih =>
    intro b s
    rw [Nat.succ_add]
    simp only [reads]
    rw [ih b (getAttr d n s).2]
    simp only [List.cons_append]

theorem c6_aux {V : Type} (deps : List Name) (n : Name) (r : Nat → Except Err V)
    (e : Nat → Err) :
    ∀ (i m : Nat) (s : St V),
      alookup s.cache n = none → s.calls n = m →
      (∀ j, j < i → r (m + j) = .error (e (m + j))) →
      (reads ⟨deps, seqFget n r⟩ n i s).1 = errList e m i ∧
      (reads ⟨deps, seqFget n r⟩ n i s).2.cache = s.cache ∧
      (∀ y, (reads ⟨deps, seqFget n r⟩ n i s).2.flag y = s.flag y) ∧
      (reads ⟨deps, seqFget n r⟩ n i s).2.calls n = m + i := by
  intro i
  induction i with
  | zero =>
    intro m s _ hm _
    exact ⟨rfl, rfl, fun y => rfl, hm⟩
  | succ i ih =>
    intro m s hmiss hm hsch
    have hr : r ((addDep deps n s).calls n) = .error (e m) := by
      rw [addDep_calls, hm]
      exact hsch 0 (Nat.succ_pos i)
    have hseq : seqFget n r (addDep deps n s)
        = ((.error (e m) : Except Err V), addDep deps n s) := by
      show (r ((addDep deps n s).calls n), addDep deps n s)
        = ((.error (e m) : Except Err V), addDep deps n s)
      rw [hr]
    have hga : getAttr ⟨deps, seqFget n r⟩ n s
        = (.error (e m), bumpCalls n (addDep deps n s)) := by
      simp only [getAttr, hmiss]
      rw [hseq]
    have hnext := ih (m + 1) (bumpCalls n (addDep deps n s))
      (by
        show alookup (addDep deps n s).cache n = none
        rw [addDep_cache]
        exact hmiss)
      (by
        show (if n = n then (addDep deps n s).calls n + 1
          else (addDep deps n s).calls n) = m + 1
        rw [if_pos rfl, addDep_calls, hm])
      (by
        intro j hj
        have hx := hsch (j + 1) (by omega)
        rw [show m + (j + 1) = m + 1 + j from by omega] at hx
        exact hx)
    refine ⟨?_, ?_, ?_, ?_⟩
    · simp only [reads, hga]
      rw [hnext.1]
      rfl
    · simp only [reads, hga]
      rw [hnext.2.1]
      show (addDep deps n s).cache = s.cache
      rw [addDep_cache]
    · intro y
      simp only [reads, hga]
      rw [hnext.2.2.1 y]
      show (addDep deps n s).flag y = s.flag y
      rw [addDep_flag]
    · simp only [reads, hga]
      rw [hnext.2.2.2]
      omega

/-- C6: Failed computations are never cached.  With a compute function
whose attempt `j` returns `r j` (ghost-indexed), if the first `k` attempts
fail and attempt `k` succeeds with `v`, then: each of the first `k` reads
propagates its error unchanged, leaves the cache slot unpopulated, and
invokes the compute function again (the call counter equals the number of
reads); read `k + 1` returns `v` and caches it. -/
theorem c6_failed_compute_not_cached {V : Type} (deps : List Name) (n : Name)
    (r : Nat → Except Err V) (e : Nat → Err) (k : Nat) (v : V) (s0 : St V)
    (hmiss : alookup s0.cache n = none) (hc0 : s0.calls n = 0)
    (herr : ∀ i, i < k → r i = .error (e i)) (hok : r k = .ok v) :
    (∀ i, i ≤ k →
      (reads ⟨deps, seqFget n r⟩ n i s0).1 = errList e 0 i ∧
      alookup (reads ⟨deps, seqFget n r⟩ n i s0).2.cache n = none ∧
      (reads ⟨deps, seqFget n r⟩ n i s0).2.calls n = i) ∧
    (reads ⟨deps, seqFget n r⟩ n (k + 1) s0).1 = errList e 0 k ++ [Except.ok v] ∧
    alookup (reads ⟨deps, seqFget n r⟩ n (k + 1) s0).2.cache n = some v := by
  have base : ∀ i, i ≤ k →
      (reads ⟨deps, seqFget n r⟩ n i s0).1 = errList e 0 i ∧
      (reads ⟨deps, seqFget n r⟩ n i s0).2.cache = s0.cache ∧
      (∀ y, (reads ⟨deps, seqFget n r⟩ n i s0).2.flag y = s0.flag y) ∧
      (reads ⟨deps, seqFget n r⟩ n i s0).2.calls n = 0 + i := by
    intro i hi
    exact c6_aux deps n r e i 0 s0 hmiss hc0
      (fun j hj => by
        rw [Nat.zero_add]
        exact herr j (by omega))
  have hk := base k (Nat.le_refl k)
  have hTmiss : alookup (reads ⟨deps, seqFget n r⟩ n k s0).2.cache n = none := by
    rw [hk.2.1]
    exact hmiss
  have hTcalls : (reads ⟨deps, seqFget n r⟩ n k s0).2.calls n = k := by
    rw [hk.2.2.2, Nat.zero_add]
  have hr : r ((addDep deps n (reads ⟨deps, seqFget n r⟩ n k s0).2).calls n)
      = .ok v := by
    rw [addDep_calls, hTcalls]
    exact hok
  have hseq : seqFget n r (addDep deps n (reads ⟨deps, seqFget n r⟩ n k s0).2)
      = ((.ok v : Except Err V),
         addDep deps n (reads ⟨deps, seqFget n r⟩ n k s0).2) := by
    show (r ((addDep deps n (reads ⟨deps, seqFget n r⟩ n k s0).2).calls n),
      addDep deps n (reads ⟨deps, seqFget n r⟩ n k s0).2) = _
    rw [hr]
  have hga : getAttr ⟨deps, seqFget n r⟩ n (reads ⟨deps, seqFget n r⟩ n k s0).2
      = (.ok v, setFlag n false (cacheSet n v (bumpCalls n
          (addDep deps n (reads ⟨deps, seqFget n r⟩ n k s0).2)))) := by
    simp only [getAttr, hTmiss]
    rw [hseq]
  have h1T : reads ⟨deps, seqFget n r⟩ n 1 (reads ⟨deps, seqFget n r⟩ n k s0).2
      = ([Except.ok v], setFlag n false (cacheSet n v (bumpCalls n
          (addDep deps n (reads ⟨deps, seqFget n r⟩ n k s0).2)))) := by
    simp only [reads, hga]
  refine ⟨?_, ?_, ?_⟩
  · intro i hi
    have h := base i hi
    refine ⟨h.1, ?_, ?_⟩
    · rw [h.2.1]
      exact hmiss
    · rw [h.2.2.2, Nat.zero_add]
  · rw [reads_split ⟨deps, seqFget n r⟩ n k 1 s0]
    show (reads ⟨deps, seqFget n r⟩ n k s0).1
        ++ (reads ⟨deps, seqFget n r⟩ n 1 (reads ⟨deps, seqFget n r⟩ n k s0).2).1
      = errList e 0 k ++ [Except.ok v]
    rw [hk.1, h1T]
  · rw [reads_split ⟨deps, seqFget n r⟩ n k 1 s0]
    show alookup (reads ⟨deps, seqFget n r⟩ n 1
      (reads ⟨deps, seqFget n r⟩ n k s0).2).2.cache n = some v
    rw [h1T]
    show alookup ((n, v) :: aremove (bumpCalls n
      (addDep deps n (reads ⟨deps, seqFget n r⟩ n k s0).2)).cache n) n = some v
    simp [alookup]

/-- C6 witness: schedule `rC6` fails on attempt 0 with `"boom"` and
succeeds on attempt 1 with `"val"`, on a fresh instance. -/
theorem c6_witness :
    (∀ i, i ≤ 1 →
      (reads ⟨[], seqFget "a" rC6⟩ "a" i (emptySt String)).1
        = errList (fun _ => "boom") 0 i ∧
      alookup (reads ⟨[], seqFget "a" rC6⟩ "a" i (emptySt String)).2.cache "a"
        = none ∧
      (reads ⟨[], seqFget "a" rC6⟩ "a" i (emptySt String)).2.calls "a" = i) ∧
    (reads ⟨[], seqFget "a" rC6⟩ "a" 2 (emptySt String)).1
      = errList (fun _ => "boom") 0 1 ++ [Except.ok "val"] ∧
    alookup (reads ⟨[], seqFget "a" rC6⟩ "a" 2 (emptySt String)).2.cache "a"
      = some "val" :=
  c6_failed_compute_not_cached [] "a" rC6 (fun _ => "boom") 1 "val"
    (emptySt String) rfl rfl
    (fun i hi => by
      have hz : i = 0 := by omega
      subst hz
      rfl)
    rfl

/-- C9: `per_instance_lru_cache` maxsize semantics, on the instance `i`'s
own cache (the LRU algorithm itself is spec-modelled from
`functools.lru_cache`, which is standard-library code): with a positive
bound `m`, a miss on a full cache inserts the new entry and evicts the
least recently used one, and the bound is invariant; with maxsize 0 no
result is stored, yet the method is invoked and a miss is counted on every
call; with maxsize `none` the cache never evicts and grows by one on every
miss. -/
theorem c9_maxsize_semantics {K V : Type} [DecidableEq K] (f : K → V) (i : Nat)
    (k : K) (tbl : List (Nat × LruSt K V)) (st : LruSt K V)
    (htbl : alookup tbl i = some st) :
    (∀ m : Nat, 0 < m → st.entries.length = m → alookup st.entries k = none →
      alookup (piCall (some m) f i k tbl).2 i
        = some ⟨(k, f k) :: st.entries.dropLast, st.hits, st.misses + 1⟩) ∧
    (∀ m : Nat, 0 < m → st.entries.length ≤ m →
      ∀ st', alookup (piCall (some m) f i k tbl).2 i = some st' →
        st'.entries.length ≤ m) ∧
    ((piCall (some 0) f i k tbl).1 = f k ∧
      alookup (piCall (some 0) f i k tbl).2 i
        = some ⟨st.entries, st.hits, st.misses + 1⟩) ∧
    (∀ k', (alookup st.entries k').isSome = true →
      ∃ st', alookup (piCall none f i k tbl).2 i = some st' ∧
        (alookup st'.entries k').isSome = true) ∧
    (alookup st.entries k = none →
      alookup (piCall none f i k tbl).2 i
        = some ⟨(k, f k) :: st.entries, st.hits, st.misses + 1⟩) := by
  have hpi : ∀ ms : Option Nat, piCall ms f i k tbl
      = ((lruCall ms f k st).1, aset tbl i (lruCall ms f k st).2) := by
    intro ms
    simp only [piCall, htbl]
  have hne0 : (none : Option Nat) ≠ some 0 := by simp
  refine ⟨?_, ?_, ?_, ?_, ?_⟩
  · intro m hm hfull habs
    obtain ⟨m', rfl⟩ : ∃ m', m = m' + 1 := ⟨m - 1, by omega⟩
    have hne : (some (m' + 1) : Option Nat) ≠ some 0 := by simp
    rw [hpi (some (m' + 1)), alookup_aset_self]
    cases hE : st.entries with
    | nil =>
      rw [hE] at hfull
      simp only [List.length_nil] at hfull
      omega
    | cons q t =>
      congr 1
      simp only [lruCall, if_neg hne, habs]
      rw [if_pos (by rw [List.length_cons, hfull]; omega)]
      rw [hE]
      rfl
  · intro m hm hb st' hst'
    obtain ⟨m', rfl⟩ : ∃ m', m = m' + 1 := ⟨m - 1, by omega⟩
    have hne : (some (m' + 1) : Option Nat) ≠ some 0 := by simp
    rw [hpi (some (m' + 1)), alookup_aset_self] at hst'
    injection hst' with hst'
    subst hst'
    cases hL : alookup st.entries k with
    | some w =>
      simp only [lruCall, if_neg hne, hL]
      show ((k, w) :: aremove st.entries k).length ≤ m' + 1
      rw [List.length_cons]
      have := aremove_length_lt st.entries k (by rw [hL]; rfl)
      omega
    | none =>
      simp only [lruCall, if_neg hne, hL]
      by_cases hlt : m' + 1 < ((k, f k) :: st.entries).length
      · rw [if_pos hlt]
        show ((k, f k) :: st.entries).dropLast.length ≤ m' + 1
        rw [List.length_dropLast, List.length_cons]
        omega
      · rw [if_neg hlt]
        show ((k, f k) :: st.entries).length ≤ m' + 1
        rw [List.length_cons] at hlt ⊢
        omega
  · constructor
    · rw [hpi (some 0)]
      show (lruCall (some 0) f k st).1 = f k
      simp [lruCall]
    · rw [hpi (some 0), alookup_aset_self]
      simp [lruCall]
  · intro k' hk'
    refine ⟨(lruCall none f k st).2, ?_, ?_⟩
    · rw [hpi none, alookup_aset_self]
    · cases hL : alookup st.entries k with
      | some w =>
        simp only [lruCall, if_neg hne0, hL]
        show (alookup ((k, w) :: aremove st.entries k) k').isSome = true
        by_cases hkk : k = k'
        · simp [alookup, hkk]
        · simp only [alookup, if_neg hkk]
          rw [alookup_aremove_ne _ _ _ (fun he => hkk he.symm)]
          exact hk'
      | none =>
        simp only [lruCall, if_neg hne0, hL]
        show (alookup ((k, f k) :: st.entries) k').isSome = true
        by_cases hkk : k = k'
        · simp [alookup, hkk]
        · simp only [alookup, if_neg hkk]
          exact hk'
  · intro habs
    rw [hpi none, alookup_aset_self]
    congr 1
    simp only [lruCall, if_neg hne0, habs]

/-- C9 witness: instance 1's cache holds keys 10 and 20; the five maxsize
behaviors at key 30. -/
theorem c9_witness :
    (∀ m : Nat, 0 < m → ([((10 : Nat), (11 : Nat)), (20, 21)] : List (Nat × Nat)).length = m →
      alookup ([((10 : Nat), (11 : Nat)), (20, 21)] : List (Nat × Nat)) 30 = none →
      alookup (piCall (some m) (fun x => x + 1) 1 30 wTbl).2 1
        = some ⟨(30, 31) :: ([((10 : Nat), (11 : Nat)), (20, 21)] : List (Nat × Nat)).dropLast, 0, 0 + 1⟩) ∧
    (∀ m : Nat, 0 < m → ([((10 : Nat), (11 : Nat)), (20, 21)] : List (Nat × Nat)).length ≤ m →
      ∀ st', alookup (piCall (some m) (fun x => x + 1) 1 30 wTbl).2 1 = some st' →
        st'.entries.length ≤ m) ∧
    ((piCall (some 0) (fun x => x + 1) 1 30 wTbl).1 = 30 + 1 ∧
      alookup (piCall (some 0) (fun x => x + 1) 1 30 wTbl).2 1
        = some ⟨[((10 : Nat), (11 : Nat)), (20, 21)], 0, 0 + 1⟩) ∧
    (∀ k', (alookup ([((10 : Nat), (11 : Nat)), (20, 21)] : List (Nat × Nat)) k').isSome = true →
      ∃ st', alookup (piCall none (fun x => x + 1) 1 30 wTbl).2 1 = some st' ∧
        (alookup st'.entries k').isSome = true) ∧
    (alookup ([((10 : Nat), (11 : Nat)), (20, 21)] : List (Nat × Nat)) 30 = none →
      alookup (piCall none (fun x => x + 1) 1 30 wTbl).2 1
        = some ⟨(30, 31) :: [((10 : Nat), (11 : Nat)), (20, 21)], 0, 0 + 1⟩) :=
  c9_maxsize_semantics (fun x => x + 1) 1 30 wTbl ⟨[(10, 11), (20, 21)], 0, 0⟩ rfl

end Tangled
